import Mathlib

/-!
Shallow embedding of `src/main.py` (BigWhaleLabs/web-search-duckduckgo).

Text values are modelled as `List Char`.  Python's `str.strip`,
`str.splitlines` and `str.split("  ")` are modelled over the ASCII
whitespace characters (space, tab, newline, carriage return, vertical
tab, form feed); `"\r\n"` counts as a single line break, as in Python.
Network and HTML-parsing effects (httpx, BeautifulSoup) are external
libraries, so they enter the model as explicit environment values: the
outcome of an HTTP request, the fragment/element structure a parse
yields, and the raw text `get_text()` returns.
-/

namespace WebSearch

/-- ASCII whitespace, as stripped by Python `str.strip()`. -/
def isPySpace (c : Char) : Bool :=
  c = ' ' || c = '\t' || c = '\n' || c = '\r' || c = '\x0b' || c = '\x0c'

/-- Line-break characters recognised by the `splitlines` model. -/
def isBreak (c : Char) : Bool :=
  c = '\n' || c = '\r'

/-- Strip trailing whitespace (`reverse ∘ dropWhile ∘ reverse`). -/
def stripEnd (l : List Char) : List Char :=
  (l.reverse.dropWhile isPySpace).reverse

/-- Python `str.strip()`: drop leading and trailing whitespace. -/
def strip (l : List Char) : List Char :=
  stripEnd (l.dropWhile isPySpace)

/-- Python `str.splitlines()`: split on line breaks, `"\r\n"` counting as
one break, with no trailing empty line for a terminating break. -/
def splitlines : List Char → List (List Char)
  | [] => []
  | '\n' :: cs => [] :: splitlines cs
  | '\r' :: '\n' :: cs => [] :: splitlines cs
  | '\r' :: cs => [] :: splitlines cs
  | c :: cs =>
    match splitlines cs with
    | [] => [[c]]
    | l :: ls => (c :: l) :: ls

/-- Python `line.split("  ")`: split on each non-overlapping occurrence of
two consecutive spaces, scanning left to right. -/
def splitTwoSpaces : List Char → List (List Char)
  | [] => [[]]
  | [c] => [[c]]
  | c1 :: c2 :: cs =>
    if c1 = ' ' ∧ c2 = ' ' then [] :: splitTwoSpaces cs
    else
      match splitTwoSpaces (c2 :: cs) with
      | [] => [[c1]]
      | l :: ls => (c1 :: l) :: ls

/-- Python `' '.join(...)`. -/
def joinSp : List (List Char) → List Char
  | [] => []
  | [l] => l
  | l :: ls => l ++ ' ' :: joinSp ls

/-- The chunk pipeline of `fetch_url` (src/main.py lines 99-101) before the
final join: split into lines, strip each, split each line on double
spaces, strip each phrase, and keep the non-empty chunks. -/
def normalizeChunks (text : List Char) : List (List Char) :=
  (((((splitlines text).map strip).flatMap splitTwoSpaces).map strip).filter
    (fun l => !l.isEmpty))

/-- Whitespace normalization of `fetch_url` (src/main.py lines 99-101):
`' '.join(chunk for chunk in chunks if chunk)`. -/
def normalizeWs (text : List Char) : List Char :=
  joinSp (normalizeChunks text)

/-- The literal truncation marker (src/main.py line 105). -/
def TRUNC_MARKER : List Char := "... [content truncated]".data

/-- Length cap of `fetch_url` (src/main.py lines 104-105): texts longer
than 10000 characters are cut to 10000 and the marker is appended. -/
def truncate10k (text : List Char) : List Char :=
  if text.length > 10000 then text.take 10000 ++ TRUNC_MARKER else text

/-- An HTML element as seen through BeautifulSoup: its number of child
nodes (a bs4 `Tag` is truthy exactly when it has at least one child) and
the text its `get_text()` returns. -/
structure Elem where
  kids : Nat
  text : List Char
deriving DecidableEq

/-- Truthiness of a `select_one` lookup: `None` is falsy, a `Tag` is
truthy iff it has at least one child node. -/
def elemTruthy : Option Elem → Bool
  | none => false
  | some e => e.kids != 0

/-- `get_text()` of a `select_one` lookup; unused when the element is
absent. -/
def elemText : Option Elem → List Char
  | none => []
  | some e => e.text

/-- One `.result__body` fragment of the parsed results page, reduced to
the three `select_one` lookups of src/main.py lines 39-41. -/
structure Fragment where
  title : Option Elem
  url : Option Elem
  snippet : Option Elem
deriving DecidableEq

/-- The dict built for one kept fragment (src/main.py lines 44-48). -/
structure SearchRecord where
  title : List Char
  url : List Char
  snippet : List Char
deriving DecidableEq

/-- The outcome of the search request-and-parse step (httpx and
BeautifulSoup are external libraries): the request timed out, some other
exception occurred (network error, non-2xx status from
`raise_for_status`, parse failure) with its `str(e)` message, or a page
was parsed, giving the `.result__body` fragments in document order. -/
inductive SearchNet where
  | timeout
  | failure (desc : List Char)
  | page (frags : List Fragment)

/-- `if title_elem and url_elem:` (src/main.py line 43). -/
def fragKeep (f : Fragment) : Bool :=
  elemTruthy f.title && elemTruthy f.url

/-- src/main.py lines 44-48: each field is the stripped `get_text()` of
its element; the snippet falls back to the empty string when its element
is missing (or falsy). -/
def fragRecord (f : Fragment) : SearchRecord :=
  { title := strip (elemText f.title)
    url := strip (elemText f.url)
    snippet := if elemTruthy f.snippet then strip (elemText f.snippet) else [] }

/-- One element of the list `search_duckduckgo` returns: a result dict or
an error-marker dict `{"error": msg}`. -/
inductive SearchItem where
  | result (r : SearchRecord)
  | error (msg : List Char)
deriving DecidableEq

/-- `query.replace(" ", "+")` (src/main.py line 19). -/
def formatQuery (q : List Char) : List Char :=
  q.map (fun c => if c = ' ' then '+' else c)

def DUCKDUCKGO_URL : List Char := "https://html.duckduckgo.com/html/".data

/-- The search request URL built at src/main.py line 20. -/
def searchRequestUrl (q : List Char) : List Char :=
  DUCKDUCKGO_URL ++ "?q=".data ++ formatQuery q

/-- `search_duckduckgo` (src/main.py lines 15-56), with the network/parse
outcome as an explicit argument.  On a parsed page the code first slices
the first `limit` fragments (`result_elements[:limit]`, which for the
validated nonnegative `limit` is `List.take`) and then keeps those whose
title and url elements are truthy; on a timeout or any other exception
it returns a one-element error-marker list. -/
def search_duckduckgo (limit : Nat) (net : SearchNet) : List SearchItem :=
  match net with
  | .timeout => [.error "Request timed out".data]
  | .failure desc => [.error ("Search failed: ".data ++ desc)]
  | .page frags =>
    ((frags.take limit).filter fragKeep).map (fun f => .result (fragRecord f))

/-- The outcome of one page-fetch request (httpx and BeautifulSoup are
external libraries): timeout, an HTTP error status raised by
`raise_for_status`, some other exception, or success carrying the text
`get_text()` yields for the chosen content region after
script/style/nav/header/footer/aside removal. -/
inductive FetchNet where
  | timeout
  | httpStatus (code : Nat) (reason : List Char)
  | failure (desc : List Char)
  | success (extracted : List Char)

/-- `url.startswith(('http://', 'https://'))` (src/main.py line 64). -/
def hasScheme (url : List Char) : Bool :=
  "http://".data.isPrefixOf url || "https://".data.isPrefixOf url

/-- src/main.py lines 64-65: the URL the GET request is issued to. -/
def requestedUrl (url : List Char) : List Char :=
  if hasScheme url then url else "https://".data ++ url

/-- The body of `fetch_url` after the request (src/main.py lines 80-114):
on success normalize whitespace and truncate; otherwise produce exactly
the error string of the matching `except` clause. -/
def fetch_url_core (net : FetchNet) : List Char :=
  match net with
  | .success extracted => truncate10k (normalizeWs extracted)
  | .timeout => "Error: Request timed out while fetching the webpage".data
  | .httpStatus code reason =>
    "Error: HTTP ".data ++ (toString code).data ++ " - ".data ++ reason
  | .failure desc => "Error: Failed to fetch webpage - ".data ++ desc

/-- `fetch_url` (src/main.py lines 59-114): prepend the scheme if missing,
issue the request to the resulting URL (the environment `fenv` maps each
requested URL to its network outcome), and post-process the outcome. -/
def fetch_url (url : List Char) (fenv : List Char → FetchNet) : List Char :=
  fetch_url_core (fenv (requestedUrl url))

/-- A raised Python exception, as surfaced by the orchestrator. -/
inductive PyExn where
  | valueError (msg : List Char)
  | keyError (key : List Char)
deriving DecidableEq

/-- Outcome of a Python call: a returned value or a raised exception. -/
inductive PyResult (α : Type) where
  | ok (val : α)
  | exn (e : PyExn)
deriving DecidableEq

/-- `item["url"]`: an error-marker dict has no `"url"` key, so the lookup
raises `KeyError` (src/main.py line 147). -/
def itemUrl : SearchItem → PyResult (List Char)
  | .result r => .ok r.url
  | .error _ => .exn (.keyError "url".data)

/-- The list comprehension at src/main.py line 147 evaluates
`item["url"]` eagerly for every item, left to right, before any fetch
runs; the first failing lookup raises out of `search_and_fetch`. -/
def collectUrls : List SearchItem → PyResult (List (List Char))
  | [] => .ok []
  | item :: rest =>
    match itemUrl item with
    | .exn e => .exn e
    | .ok u =>
      match collectUrls rest with
      | .exn e => .exn e
      | .ok us => .ok (u :: us)

/-- One element of a successful `search_and_fetch` return: the original
item dict with the `summary` key added (src/main.py lines 153-154). -/
structure Enriched where
  item : SearchItem
  summary : List Char
deriving DecidableEq

/-- The shape of a non-raising `search_and_fetch` return value: either
the single `{"message": ...}` record or the enriched result list. -/
inductive SafReturn where
  | message (msg : List Char)
  | results (xs : List Enriched)
deriving DecidableEq

/-- `min(limit, 10)` (src/main.py line 139), as the nonnegative count the
slice `result_elements[:limit]` uses (the validated limit is at least 1,
so `Int.toNat` is exact). -/
def effectiveLimit (limit : Int) : Nat :=
  (min limit 10).toNat

/-- `search_and_fetch` (src/main.py lines 116-156).  `limit : Int` models
the already-typed integer argument; `snet` is the search request outcome
and `fenv` maps each fetched URL to its request outcome.  Mirrors the
source step by step: query and limit validation, clamping, the search
call, the empty check, the eager `item["url"]` lookups, the fetch
fan-out, and the positional merge of summaries into the result dicts. -/
def search_and_fetch (query : List Char) (limit : Int) (snet : SearchNet)
    (fenv : List Char → FetchNet) : PyResult SafReturn :=
  if (strip query).isEmpty then
    .exn (.valueError "Query must be a non-empty string".data)
  else if limit < 1 then
    .exn (.valueError "Limit must be a positive integer".data)
  else
    let results := search_duckduckgo (effectiveLimit limit) snet
    if results.isEmpty then
      .ok (.message ("No results found for \x27".data ++ query ++ "\x27".data))
    else
      match collectUrls results with
      | .exn e => .exn e
      | .ok urls =>
        let summaries := urls.map (fun u => fetch_url u fenv)
        .ok (.results (List.zipWith (fun it s => Enriched.mk it s) results summaries))

/-- Does the text contain a line-break character? -/
def hasBreak (l : List Char) : Bool := l.any isBreak

/-- Does the text contain two consecutive spaces? -/
def hasTwoSp : List Char → Bool
  | [] => false
  | [_] => false
  | c1 :: c2 :: cs => (c1 = ' ' && c2 = ' ') || hasTwoSp (c2 :: cs)

/-- The text is empty or does not start with whitespace. -/
def headOk (l : List Char) : Bool :=
  match l with
  | [] => true
  | c :: _ => !isPySpace c

/-- The text is empty or does not end with whitespace. -/
def lastOk (l : List Char) : Bool := headOk l.reverse

/-- Shape of a chunk produced by the normalization pipeline: non-empty,
no leading or trailing whitespace, no two consecutive spaces, and no
line breaks. -/
def goodChunk (l : List Char) : Bool :=
  !l.isEmpty && headOk l && lastOk l && !hasTwoSp l && !hasBreak l

example : strip "  ab c  ".data = "ab c".data := by decide
example : splitlines "a\r\nb\nc".data = ["a".data, "b".data, "c".data] := by decide
example : splitlines "".data = [] := by decide
example : splitlines "a\n".data = ["a".data] := by decide
example : splitTwoSpaces "a   b".data = ["a".data, " b".data] := by decide
example : splitTwoSpaces "".data = [[]] := by decide
example : normalizeWs "  Hello \n  world  foo \n\n".data = "Hello world foo".data := by decide
example : normalizeWs "a\r\nb".data = "a b".data := by decide
example : search_duckduckgo 3 .timeout = [.error "Request timed out".data] := by decide
example : fetch_url_core (.httpStatus 404 "Not Found".data) =
    "Error: HTTP 404 - Not Found".data := by decide
example : requestedUrl "example.com".data = "https://example.com".data := by decide
example : requestedUrl "http://a.io".data = "http://a.io".data := by decide
example : collectUrls [.error "Request timed out".data] = .exn (.keyError "url".data) := by
  decide
example :
    search_and_fetch "   ".data 3 .timeout (fun _ => FetchNet.timeout) =
      .exn (.valueError "Query must be a non-empty string".data) := by decide
example :
    search_and_fetch "rust".data 0 .timeout (fun _ => FetchNet.timeout) =
      .exn (.valueError "Limit must be a positive integer".data) := by decide
example :
    search_and_fetch "rust".data 3 (.page []) (fun _ => FetchNet.timeout) =
      .ok (.message "No results found for \x27rust\x27".data) := by decide
example :
    search_and_fetch "rust".data 3 .timeout (fun _ => FetchNet.timeout) =
      .exn (.keyError "url".data) := by decide

theorem hasTwoSp_cons_false {c : Char} {l : List Char}
    (h : hasTwoSp (c :: l) = false) : hasTwoSp l = false := by
  cases l with
  | nil => rfl
  | cons d ds =>
    simp only [hasTwoSp, Bool.or_eq_false_iff] at h
    exact h.2

theorem hasTwoSp_append_left {a b : List Char}
    (h : hasTwoSp (a ++ b) = false) : hasTwoSp a = false := by
  induction a with
  | nil => rfl
  | cons c a' ih =>
    cases a' with
    | nil => rfl
    | cons d ds =>
      simp only [List.cons_append] at h
      simp only [hasTwoSp, Bool.or_eq_false_iff] at h ⊢
      refine ⟨h.1, ?_⟩
      have h2 : hasTwoSp ((d :: ds) ++ b) = false := by
        simpa using h.2
      simpa using ih h2

theorem hasTwoSp_append_right {a b : List Char}
    (h : hasTwoSp (a ++ b) = false) : hasTwoSp b = false := by
  induction a with
  | nil => exact h
  | cons c a' ih => exact ih (hasTwoSp_cons_false (by simpa using h))

theorem stripEnd_decomp (l : List Char) : ∃ t, l = stripEnd l ++ t := by
  refine ⟨(l.reverse.takeWhile isPySpace).reverse, ?_⟩
  have h : l.reverse.takeWhile isPySpace ++ l.reverse.dropWhile isPySpace = l.reverse :=
    List.takeWhile_append_dropWhile isPySpace l.reverse
  calc l = l.reverse.reverse := (List.reverse_reverse l).symm
    _ = (l.reverse.takeWhile isPySpace ++ l.reverse.dropWhile isPySpace).reverse := by
        rw [h]
    _ = (l.reverse.dropWhile isPySpace).reverse ++
          (l.reverse.takeWhile isPySpace).reverse := by
        rw [List.reverse_append]
    _ = stripEnd l ++ (l.reverse.takeWhile isPySpace).reverse := rfl

theorem hasTwoSp_stripEnd {l : List Char} (h : hasTwoSp l = false) :
    hasTwoSp (stripEnd l) = false := by
  obtain ⟨t, ht⟩ := stripEnd_decomp l
  rw [ht] at h
  exact hasTwoSp_append_left h

theorem hasTwoSp_dropWhile (p : Char → Bool) {l : List Char}
    (h : hasTwoSp l = false) : hasTwoSp (l.dropWhile p) = false := by
  have hd : l.takeWhile p ++ l.dropWhile p = l := List.takeWhile_append_dropWhile p l
  rw [← hd] at h
  exact hasTwoSp_append_right h

theorem hasTwoSp_strip {l : List Char} (h : hasTwoSp l = false) :
    hasTwoSp (strip l) = false :=
  hasTwoSp_stripEnd (hasTwoSp_dropWhile isPySpace h)

theorem mem_dropWhile_sub {c : Char} {p : Char → Bool} {l : List Char}
    (h : c ∈ l.dropWhile p) : c ∈ l := by
  have hd : l.takeWhile p ++ l.dropWhile p = l := List.takeWhile_append_dropWhile p l
  rw [← hd]
  exact List.mem_append_right _ h

theorem mem_strip_sub {c : Char} {l : List Char} (h : c ∈ strip l) : c ∈ l := by
  obtain ⟨t, ht⟩ := stripEnd_decomp (l.dropWhile isPySpace)
  have hm : c ∈ l.dropWhile isPySpace := by
    rw [ht]
    exact List.mem_append_left _ h
  exact mem_dropWhile_sub hm

theorem hasBreak_iff_mem {l : List Char} :
    hasBreak l = false ↔ ∀ c ∈ l, isBreak c = false := by
  simp [hasBreak]

theorem hasBreak_strip {l : List Char} (h : hasBreak l = false) :
    hasBreak (strip l) = false := by
  rw [hasBreak_iff_mem] at h ⊢
  exact fun c hc => h c (mem_strip_sub hc)

theorem dropWhile_head_false {p : Char → Bool} :
    ∀ {l : List Char} {c : Char} {cs : List Char},
      List.dropWhile p l = c :: cs → p c = false := by
  intro l
  induction l with
  | nil => intro c cs h; simp [List.dropWhile] at h
  | cons a l' ih =>
    intro c cs h
    rw [List.dropWhile_cons] at h
    by_cases hp : p a = true
    · rw [if_pos hp] at h
      exact ih h
    · rw [if_neg hp] at h
      injection h with h1 h2
      subst h1
      simpa using hp

theorem headOk_dropWhile (l : List Char) :
    headOk (l.dropWhile isPySpace) = true := by
  cases hd : l.dropWhile isPySpace with
  | nil => rfl
  | cons c cs =>
    have hc := dropWhile_head_false hd
    simp [headOk, hc]

theorem headOk_stripEnd_of {l : List Char} (h : headOk l = true) :
    headOk (stripEnd l) = true := by
  obtain ⟨t, ht⟩ := stripEnd_decomp l
  cases hs : stripEnd l with
  | nil => rfl
  | cons c cs =>
    rw [hs] at ht
    rw [ht] at h
    simpa [headOk] using h

theorem headOk_strip (l : List Char) : headOk (strip l) = true :=
  headOk_stripEnd_of (headOk_dropWhile l)

theorem lastOk_stripEnd (l : List Char) : lastOk (stripEnd l) = true := by
  unfold lastOk stripEnd
  rw [List.reverse_reverse]
  exact headOk_dropWhile l.reverse

theorem lastOk_strip (l : List Char) : lastOk (strip l) = true :=
  lastOk_stripEnd (l.dropWhile isPySpace)

theorem dropWhile_eq_self_of_headOk {l : List Char} (h : headOk l = true) :
    l.dropWhile isPySpace = l := by
  cases l with
  | nil => rfl
  | cons c cs =>
    simp only [headOk, Bool.not_eq_true'] at h
    simp [List.dropWhile_cons, h]

theorem strip_eq_self {l : List Char} (h1 : headOk l = true) (h2 : lastOk l = true) :
    strip l = l := by
  have h2' : headOk l.reverse = true := h2
  unfold strip stripEnd
  rw [dropWhile_eq_self_of_headOk h1, dropWhile_eq_self_of_headOk h2']
  exact List.reverse_reverse l

theorem strip_idem (l : List Char) : strip (strip l) = strip l :=
  strip_eq_self (headOk_strip l) (lastOk_strip l)

theorem splitlines_cons_generic {c : Char} {cs : List Char}
    (h1 : c ≠ '\n') (h2 : c ≠ '\r') :
    splitlines (c :: cs) =
      match splitlines cs with
      | [] => [[c]]
      | l :: ls => (c :: l) :: ls := by
  simp [splitlines, h1, h2]

theorem splitlines_no_break :
    ∀ t : List Char, ∀ l ∈ splitlines t, ∀ c ∈ l, isBreak c = false := by
  intro t
  induction t using splitlines.induct with
  | case1 =>
    intro l hl
    simp [splitlines] at hl
  | case2 cs ih =>
    intro l hl c hc
    rw [show splitlines ('\n' :: cs) = [] :: splitlines cs from rfl] at hl
    rcases List.mem_cons.mp hl with h | h
    · subst h; simp at hc
    · exact ih l h c hc
  | case3 cs ih =>
    intro l hl c hc
    rw [show splitlines ('\r' :: '\n' :: cs) = [] :: splitlines cs from rfl] at hl
    rcases List.mem_cons.mp hl with h | h
    · subst h; simp at hc
    · exact ih l h c hc
  | case4 cs hcs ih =>
    intro l hl c hc
    have he : splitlines ('\r' :: cs) = [] :: splitlines cs := by
      cases cs with
      | nil => rfl
      | cons d ds =>
        have hd : d ≠ '\n' := fun h => hcs ds (by rw [h])
        simp [splitlines, hd]
    rw [he] at hl
    rcases List.mem_cons.mp hl with h | h
    · subst h; simp at hc
    · exact ih l h c hc
  | case5 c cs h1 h2 h3 hnil ih =>
    intro l hl x hx
    rw [splitlines_cons_generic (fun h => h1 h) (fun h => h3 h), hnil] at hl
    simp at hl
    subst hl
    rcases List.mem_singleton.mp hx with h
    subst h
    simp only [isBreak, Bool.or_eq_false_iff, decide_eq_false_iff_not]
    exact ⟨h1, h3⟩
  | case6 c cs h1 h2 h3 l0 ls0 hcons ih =>
    intro l hl x hx
    rw [splitlines_cons_generic (fun h => h1 h) (fun h => h3 h), hcons] at hl
    rcases List.mem_cons.mp hl with h | h
    · subst h
      rcases List.mem_cons.mp hx with h | h
      · subst h
        simp only [isBreak, Bool.or_eq_false_iff, decide_eq_false_iff_not]
        exact ⟨h1, h3⟩
      · exact ih l0 (by rw [hcons]; exact List.mem_cons_self l0 ls0) x h
    · exact ih l (by rw [hcons]; exact List.mem_cons_of_mem l0 h) x hx

theorem splitlines_singleton {l : List Char}
    (hb : hasBreak l = false) (hne : l ≠ []) : splitlines l = [l] := by
  induction l with
  | nil => exact absurd rfl hne
  | cons c cs ih =>
    have hcb : isBreak c = false := (hasBreak_iff_mem.mp hb) c (List.mem_cons_self c cs)
    have h1 : c ≠ '\n' := by
      intro h; subst h; simp [isBreak] at hcb
    have h2 : c ≠ '\r' := by
      intro h; subst h; simp [isBreak] at hcb
    rw [splitlines_cons_generic h1 h2]
    by_cases hcs : cs = []
    · subst hcs; rfl
    · have hbcs : hasBreak cs = false := by
        rw [hasBreak_iff_mem] at hb ⊢
        exact fun x hx => hb x (List.mem_cons_of_mem c hx)
      rw [ih hbcs hcs]

theorem splitTwoSpaces_ne_nil : ∀ l : List Char, splitTwoSpaces l ≠ [] := by
  intro l
  match l with
  | [] => simp [splitTwoSpaces]
  | [c] => simp [splitTwoSpaces]
  | c1 :: c2 :: cs =>
    by_cases h : c1 = ' ' ∧ c2 = ' '
    · simp [splitTwoSpaces, h]
    · simp only [splitTwoSpaces, if_neg h]
      cases splitTwoSpaces (c2 :: cs) with
      | nil => simp
      | cons a as => simp

theorem splitTwoSpaces_first_shape :
    ∀ (l : List Char) (hd : List Char) (tl : List (List Char)),
      splitTwoSpaces l = hd :: tl → hd = [] ∨ hd.head? = l.head? := by
  intro l hd tl he
  match l with
  | [] =>
    simp [splitTwoSpaces] at he
    exact Or.inl he.1
  | [c] =>
    simp [splitTwoSpaces] at he
    rw [← he.1]
    simp
  | c1 :: c2 :: cs =>
    by_cases h : c1 = ' ' ∧ c2 = ' '
    · rw [show splitTwoSpaces (c1 :: c2 :: cs) = [] :: splitTwoSpaces cs from by
        simp [splitTwoSpaces, h]] at he
      injection he with ha hb
      exact Or.inl ha.symm
    · simp only [splitTwoSpaces, if_neg h] at he
      cases hs : splitTwoSpaces (c2 :: cs) with
      | nil => exact absurd hs (splitTwoSpaces_ne_nil (c2 :: cs))
      | cons a as =>
        rw [hs] at he
        injection he with ha hb
        rw [← ha]
        simp

theorem splitTwoSpaces_sub :
    ∀ l : List Char, ∀ ph ∈ splitTwoSpaces l, ∀ c ∈ ph, c ∈ l := by
  intro l
  induction l using splitTwoSpaces.induct with
  | case1 =>
    intro ph hph c hc
    simp [splitTwoSpaces] at hph
    subst hph
    simp at hc
  | case2 a =>
    intro ph hph c hc
    simp [splitTwoSpaces] at hph
    subst hph
    exact hc
  | case3 c1 c2 cs h ih =>
    intro ph hph c hc
    rw [show splitTwoSpaces (c1 :: c2 :: cs) = [] :: splitTwoSpaces cs from by
      simp [splitTwoSpaces, h]] at hph
    rcases List.mem_cons.mp hph with hp | hp
    · subst hp; simp at hc
    · exact List.mem_cons_of_mem c1 (List.mem_cons_of_mem c2 (ih ph hp c hc))
  | case4 c1 c2 cs h hnil ih =>
    intro ph hph c hc
    exact absurd hnil (splitTwoSpaces_ne_nil (c2 :: cs))
  | case5 c1 c2 cs h a as hs ih =>
    intro ph hph c hc
    simp only [splitTwoSpaces, if_neg h, hs] at hph
    rcases List.mem_cons.mp hph with hp | hp
    · subst hp
      rcases List.mem_cons.mp hc with hx | hx
      · simp [hx]
      · exact List.mem_cons_of_mem c1 (ih a (by rw [hs]; exact List.mem_cons_self a as) c hx)
    · exact List.mem_cons_of_mem c1 (ih ph (by rw [hs]; exact List.mem_cons_of_mem a hp) c hc)

theorem splitTwoSpaces_no2sp :
    ∀ l : List Char, ∀ ph ∈ splitTwoSpaces l, hasTwoSp ph = false := by
  intro l
  induction l using splitTwoSpaces.induct with
  | case1 =>
    intro ph hph
    simp [splitTwoSpaces] at hph
    subst hph
    rfl
  | case2 a =>
    intro ph hph
    simp [splitTwoSpaces] at hph
    subst hph
    rfl
  | case3 c1 c2 cs h ih =>
    intro ph hph
    rw [show splitTwoSpaces (c1 :: c2 :: cs) = [] :: splitTwoSpaces cs from by
      simp [splitTwoSpaces, h]] at hph
    rcases List.mem_cons.mp hph with hp | hp
    · subst hp; rfl
    · exact ih ph hp
  | case4 c1 c2 cs h hnil ih =>
    intro ph hph
    exact absurd hnil (splitTwoSpaces_ne_nil (c2 :: cs))
  | case5 c1 c2 cs h a as hs ih =>
    intro ph hph
    simp only [splitTwoSpaces, if_neg h, hs] at hph
    rcases List.mem_cons.mp hph with hp | hp
    · subst hp
      have ha : hasTwoSp a = false :=
        ih a (by rw [hs]; exact List.mem_cons_self a as)
      cases a with
      | nil => rfl
      | cons d ds =>
        rcases splitTwoSpaces_first_shape (c2 :: cs) (d :: ds) as hs with hz | hz
        · simp at hz
        · simp at hz
          subst hz
          simp only [hasTwoSp, Bool.or_eq_false_iff]
          refine ⟨?_, ha⟩
          simp only [Bool.and_eq_false_iff]
          by_cases hc1 : c1 = ' '
          · right
            simp only [decide_eq_false_iff_not]
            exact fun hc2 => h ⟨hc1, hc2⟩
          · left
            simp only [decide_eq_false_iff_not]
            exact hc1
    · exact ih ph (by rw [hs]; exact List.mem_cons_of_mem a hp)

theorem splitTwoSpaces_singleton {l : List Char} (h : hasTwoSp l = false) :
    splitTwoSpaces l = [l] := by
  induction l with
  | nil => rfl
  | cons c cs ih =>
    cases cs with
    | nil => rfl
    | cons d ds =>
      simp only [hasTwoSp, Bool.or_eq_false_iff] at h
      have hnd : ¬(c = ' ' ∧ d = ' ') := by
        intro hcd
        rcases hcd with ⟨hc, hd⟩
        subst hc
        subst hd
        exact absurd h.1 (by decide)
      simp only [splitTwoSpaces, if_neg hnd]
      rw [ih h.2]

theorem goodChunk_ne_nil {l : List Char} (h : goodChunk l = true) : l ≠ [] := by
  simp only [goodChunk, Bool.and_eq_true, Bool.not_eq_true'] at h
  intro he
  subst he
  simp at h

theorem goodChunk_headOk {l : List Char} (h : goodChunk l = true) :
    headOk l = true := by
  simp only [goodChunk, Bool.and_eq_true, Bool.not_eq_true'] at h
  exact h.1.1.1.2

theorem goodChunk_lastOk {l : List Char} (h : goodChunk l = true) :
    lastOk l = true := by
  simp only [goodChunk, Bool.and_eq_true, Bool.not_eq_true'] at h
  exact h.1.1.2

theorem goodChunk_no2sp {l : List Char} (h : goodChunk l = true) :
    hasTwoSp l = false := by
  simp only [goodChunk, Bool.and_eq_true, Bool.not_eq_true'] at h
  exact h.1.2

theorem goodChunk_noBreak {l : List Char} (h : goodChunk l = true) :
    hasBreak l = false := by
  simp only [goodChunk, Bool.and_eq_true, Bool.not_eq_true'] at h
  exact h.2

theorem joinSp_ne_nil {l : List Char} (ls : List (List Char)) (h : l ≠ []) :
    joinSp (l :: ls) ≠ [] := by
  cases ls with
  | nil => simpa [joinSp] using h
  | cons l2 ls2 => simp [joinSp]

theorem headOk_append_left {a : List Char} (b : List Char) (h : a ≠ []) :
    headOk (a ++ b) = headOk a := by
  cases a with
  | nil => exact absurd rfl h
  | cons c cs => rfl

theorem lastOk_append_right (a : List Char) {b : List Char} (h : b ≠ []) :
    lastOk (a ++ b) = lastOk b := by
  unfold lastOk
  rw [List.reverse_append]
  exact headOk_append_left a.reverse (by simpa using h)

theorem headOk_joinSp {chs : List (List Char)}
    (h : ∀ x ∈ chs, goodChunk x = true) : headOk (joinSp chs) = true := by
  cases chs with
  | nil => rfl
  | cons l ls =>
    have hl := h l (List.mem_cons_self l ls)
    have hne : l ≠ [] := goodChunk_ne_nil hl
    have hh : headOk l = true := goodChunk_headOk hl
    cases ls with
    | nil => exact hh
    | cons l2 ls2 =>
      rw [show joinSp (l :: l2 :: ls2) = l ++ ' ' :: joinSp (l2 :: ls2) from rfl]
      rw [headOk_append_left _ hne]
      exact hh

theorem lastOk_joinSp {chs : List (List Char)}
    (h : ∀ x ∈ chs, goodChunk x = true) : lastOk (joinSp chs) = true := by
  induction chs with
  | nil => rfl
  | cons l ls ih =>
    cases ls with
    | nil => exact goodChunk_lastOk (h l (List.mem_cons_self l []))
    | cons l2 ls2 =>
      have h2 : ∀ x ∈ l2 :: ls2, goodChunk x = true :=
        fun x hx => h x (List.mem_cons_of_mem l hx)
      have hne2 : l2 ≠ [] := goodChunk_ne_nil (h2 l2 (List.mem_cons_self l2 ls2))
      have hjne : joinSp (l2 :: ls2) ≠ [] := joinSp_ne_nil ls2 hne2
      rw [show joinSp (l :: l2 :: ls2) = l ++ ' ' :: joinSp (l2 :: ls2) from rfl]
      rw [lastOk_append_right l (List.cons_ne_nil ' ' _)]
      rw [show (' ' :: joinSp (l2 :: ls2) : List Char) =
        [' '] ++ joinSp (l2 :: ls2) from rfl]
      rw [lastOk_append_right [' '] hjne]
      exact ih h2

theorem hasBreak_joinSp {chs : List (List Char)}
    (h : ∀ x ∈ chs, goodChunk x = true) : hasBreak (joinSp chs) = false := by
  induction chs with
  | nil => rfl
  | cons l ls ih =>
    have hl : hasBreak l = false := goodChunk_noBreak (h l (List.mem_cons_self l ls))
    cases ls with
    | nil => exact hl
    | cons l2 ls2 =>
      have h2 : ∀ x ∈ l2 :: ls2, goodChunk x = true :=
        fun x hx => h x (List.mem_cons_of_mem l hx)
      have hi := ih h2
      rw [show joinSp (l :: l2 :: ls2) = l ++ ' ' :: joinSp (l2 :: ls2) from rfl]
      simp only [hasBreak] at hl hi ⊢
      simp [List.any_append, hl, hi, isBreak]

theorem hasTwoSp_space_cons {b : List Char} (hh : headOk b = true)
    (hb : hasTwoSp b = false) : hasTwoSp (' ' :: b) = false := by
  cases b with
  | nil => rfl
  | cons d ds =>
    simp only [headOk, Bool.not_eq_true'] at hh
    have hd : d ≠ ' ' := by
      intro h
      subst h
      simp [isPySpace] at hh
    simp only [hasTwoSp, Bool.or_eq_false_iff]
    constructor
    · simp [hd]
    · exact hb

theorem hasTwoSp_sep :
    ∀ (a : List Char) {b : List Char}, hasTwoSp a = false → lastOk a = true →
      headOk b = true → hasTwoSp b = false → hasTwoSp (a ++ ' ' :: b) = false := by
  intro a
  induction a with
  | nil =>
    intro b ha hla hh hb
    exact hasTwoSp_space_cons hh hb
  | cons c a2 ih =>
    intro b ha hla hh hb
    cases a2 with
    | nil =>
      have hc : isPySpace c = false := by simpa [lastOk, headOk] using hla
      have hcs : c ≠ ' ' := by
        intro h
        subst h
        simp [isPySpace] at hc
      simp only [List.cons_append, List.nil_append, hasTwoSp, Bool.or_eq_false_iff]
      exact ⟨by simp [hcs], hasTwoSp_space_cons hh hb⟩
    | cons d ds =>
      simp only [hasTwoSp, Bool.or_eq_false_iff] at ha
      have hla2 : lastOk (d :: ds) = true := by
        have hx : lastOk (c :: d :: ds) = true := hla
        rw [show (c :: d :: ds : List Char) = [c] ++ (d :: ds) from rfl] at hx
        rwa [lastOk_append_right [c] (List.cons_ne_nil d ds)] at hx
      have hrec := ih ha.2 hla2 hh hb
      simp only [List.cons_append, hasTwoSp, Bool.or_eq_false_iff] at hrec ⊢
      exact ⟨ha.1, hrec⟩

theorem hasTwoSp_joinSp {chs : List (List Char)}
    (h : ∀ x ∈ chs, goodChunk x = true) : hasTwoSp (joinSp chs) = false := by
  induction chs with
  | nil => rfl
  | cons l ls ih =>
    cases ls with
    | nil => exact goodChunk_no2sp (h l (List.mem_cons_self l []))
    | cons l2 ls2 =>
      have h2 : ∀ x ∈ l2 :: ls2, goodChunk x = true :=
        fun x hx => h x (List.mem_cons_of_mem l hx)
      have hgl := h l (List.mem_cons_self l (l2 :: ls2))
      rw [show joinSp (l :: l2 :: ls2) = l ++ ' ' :: joinSp (l2 :: ls2) from rfl]
      exact hasTwoSp_sep l (goodChunk_no2sp hgl) (goodChunk_lastOk hgl)
        (headOk_joinSp h2) (ih h2)

theorem normalizeChunks_good (t : List Char) :
    ∀ ch ∈ normalizeChunks t, goodChunk ch = true := by
  intro ch hch
  rcases List.mem_filter.mp hch with ⟨hmem, hne⟩
  rcases List.mem_map.mp hmem with ⟨ph, hph, hst⟩
  rcases List.mem_flatMap.mp hph with ⟨l2, hl2, hph2⟩
  rcases List.mem_map.mp hl2 with ⟨line, hline, hstl⟩
  subst hst
  subst hstl
  have h2sp : hasTwoSp (strip ph) = false :=
    hasTwoSp_strip (splitTwoSpaces_no2sp (strip line) ph hph2)
  have hbrk : hasBreak (strip ph) = false := by
    rw [hasBreak_iff_mem]
    intro c hc
    have hm1 : c ∈ ph := mem_strip_sub hc
    have hm2 : c ∈ strip line := splitTwoSpaces_sub (strip line) ph hph2 c hm1
    have hm3 : c ∈ line := mem_strip_sub hm2
    exact splitlines_no_break t line hline c hm3
  simp only [goodChunk, Bool.and_eq_true, Bool.not_eq_true']
  refine ⟨⟨⟨⟨?_, headOk_strip ph⟩, lastOk_strip ph⟩, h2sp⟩, hbrk⟩
  simpa using hne

theorem normalizeWs_joinSp_good {chs : List (List Char)}
    (h : ∀ x ∈ chs, goodChunk x = true) : normalizeWs (joinSp chs) = joinSp chs := by
  cases chs with
  | nil => rfl
  | cons l ls =>
    have hne : joinSp (l :: ls) ≠ [] :=
      joinSp_ne_nil ls (goodChunk_ne_nil (h l (List.mem_cons_self l ls)))
    have hbrk : hasBreak (joinSp (l :: ls)) = false := hasBreak_joinSp h
    have h2sp : hasTwoSp (joinSp (l :: ls)) = false := hasTwoSp_joinSp h
    have hself : strip (joinSp (l :: ls)) = joinSp (l :: ls) :=
      strip_eq_self (headOk_joinSp h) (lastOk_joinSp h)
    have hfil : (!(joinSp (l :: ls)).isEmpty) = true := by simpa using hne
    unfold normalizeWs normalizeChunks
    rw [splitlines_singleton hbrk hne]
    simp only [List.map_cons, List.map_nil, hself, List.flatMap_cons, List.flatMap_nil]
    rw [splitTwoSpaces_singleton h2sp]
    simp only [List.append_nil, List.map_cons, List.map_nil, hself]
    simp [List.filter_cons, hfil, joinSp]

theorem hasTwoSp_of_no_space : ∀ l : List Char, (∀ c ∈ l, c ≠ ' ') → hasTwoSp l = false := by
  intro l
  induction l with
  | nil => intro h; rfl
  | cons c cs ih =>
    intro h
    cases cs with
    | nil => rfl
    | cons d ds =>
      simp only [hasTwoSp, Bool.or_eq_false_iff]
      constructor
      · have hc : c ≠ ' ' := h c (List.mem_cons_self c (d :: ds))
        simp [hc]
      · exact ih fun x hx => h x (List.mem_cons_of_mem c hx)

theorem normalizeWs_eq_self_of_good {l : List Char} (h : goodChunk l = true) :
    normalizeWs l = l := by
  have hall : ∀ x ∈ [l], goodChunk x = true := by
    intro x hx
    rw [List.mem_singleton.mp hx]
    exact h
  have hj := normalizeWs_joinSp_good hall
  simpa [joinSp] using hj

theorem goodChunk_replicate_a {n : Nat} (h : 0 < n) :
    goodChunk (List.replicate n 'a') = true := by
  obtain ⟨m, rfl⟩ : ∃ m, n = m + 1 := ⟨n - 1, by omega⟩
  simp only [goodChunk, Bool.and_eq_true, Bool.not_eq_true']
  refine ⟨⟨⟨⟨?_, ?_⟩, ?_⟩, ?_⟩, ?_⟩
  · rw [List.replicate_succ]
    rfl
  · rw [List.replicate_succ]
    rfl
  · rw [lastOk, List.reverse_replicate, List.replicate_succ]
    rfl
  · apply hasTwoSp_of_no_space
    intro c hc
    rw [List.eq_of_mem_replicate hc]
    decide
  · rw [hasBreak_iff_mem]
    intro c hc
    rw [List.eq_of_mem_replicate hc]
    decide

/-- C1 (code_bug): on any failure of the search step, `search_duckduckgo`
returns the one-element error-marker sequence the spec describes, but
`search_and_fetch` does NOT return it unchanged: building the fetch
tasks evaluates `item["url"]` on the marker dict (src/main.py line 147),
which has only an `"error"` key, so `search_and_fetch` raises
`KeyError("url")` (before attempting any fetch).  Evaluated at query
"rust programming", limit 3, for a search timeout and for a generic
search exception. -/
theorem C1_search_failure_keyerror :
    ∀ (desc : List Char) (fenv : List Char → FetchNet),
      search_duckduckgo 3 SearchNet.timeout =
          [SearchItem.error "Request timed out".data] ∧
      search_duckduckgo 3 (SearchNet.failure desc) =
          [SearchItem.error ("Search failed: ".data ++ desc)] ∧
      search_and_fetch "rust programming".data 3 SearchNet.timeout fenv =
          PyResult.exn (PyExn.keyError "url".data) ∧
      search_and_fetch "rust programming".data 3 (SearchNet.failure desc) fenv =
          PyResult.exn (PyExn.keyError "url".data) := by
  intro desc fenv
  exact ⟨rfl, rfl, rfl, rfl⟩

/-- C2 (counterexample): the claim that a fragment missing its title or
url element does not count toward `limit` is false.  On a page whose
fragments are [no-title, good, good] with limit 2, the page has 2
fragments with both elements, yet the output has length 1, because the
code slices `result_elements[:limit]` before filtering. -/
theorem C2_counterexample_slice_before_filter :
    ¬(2 ≤ (([⟨none, some ⟨1, "u0".data⟩, none⟩,
             ⟨some ⟨1, "t1".data⟩, some ⟨1, "u1".data⟩, none⟩,
             ⟨some ⟨1, "t2".data⟩, some ⟨1, "u2".data⟩, none⟩] :
               List Fragment).filter fragKeep).length →
      (search_duckduckgo 2 (SearchNet.page
          [⟨none, some ⟨1, "u0".data⟩, none⟩,
           ⟨some ⟨1, "t1".data⟩, some ⟨1, "u1".data⟩, none⟩,
           ⟨some ⟨1, "t2".data⟩, some ⟨1, "u2".data⟩, none⟩])).length = 2) := by
  decide

theorem length_filter_eq_iff_all {α : Type} (p : α → Bool) :
    ∀ l : List α, ((l.filter p).length = l.length ↔ ∀ a ∈ l, p a = true) := by
  intro l
  induction l with
  | nil => simp
  | cons a l ih =>
    by_cases hp : p a = true
    · simp [List.filter_cons, hp, List.forall_mem_cons, ih]
    · rw [List.filter_cons, if_neg hp]
      constructor
      · intro he
        exfalso
        have hle := List.length_filter_le p l
        rw [List.length_cons] at he
        omega
      · intro hcon
        exact absurd (hcon a (List.mem_cons_self a l)) hp

theorem length_filter_lt_of_mem_false {α : Type} {p : α → Bool} {l : List α}
    {a : α} (ha : a ∈ l) (hfa : p a = false) : (l.filter p).length < l.length := by
  have hle := List.length_filter_le p l
  have hne : (l.filter p).length ≠ l.length := by
    intro he
    have hall := (length_filter_eq_iff_all p l).mp he a ha
    rw [hfa] at hall
    exact absurd hall (by simp)
  omega

/-- C2 (amended): a fragment missing its title or url element is dropped
from the output but still consumes one of the `limit` slots, because the
code slices `result_elements[:limit]` before filtering.  For every page
and limit: the output consists, in order, of the records of exactly
those fragments among the first `limit` that have both elements; it has
at most `limit` records; it has exactly `min limit (page length)`
records if and only if every one of the first `limit` fragments has both
elements; and whenever the page has at least `limit` fragments but one
of the first `limit` is malformed, the output has strictly fewer than
`limit` records. -/
theorem C2_amended_slice_then_filter (frags : List Fragment) (limit : Nat) :
    search_duckduckgo limit (SearchNet.page frags) =
      ((frags.take limit).filter fragKeep).map
        (fun f => SearchItem.result (fragRecord f)) ∧
    (search_duckduckgo limit (SearchNet.page frags)).length ≤ limit ∧
    ((search_duckduckgo limit (SearchNet.page frags)).length =
        min limit frags.length ↔
      ∀ f ∈ frags.take limit, fragKeep f = true) ∧
    ∀ f ∈ frags.take limit, fragKeep f = false → limit ≤ frags.length →
      (search_duckduckgo limit (SearchNet.page frags)).length < limit := by
  have htake : (frags.take limit).length = min limit frags.length := by
    simp [List.length_take]
  have hlen : (search_duckduckgo limit (SearchNet.page frags)).length =
      ((frags.take limit).filter fragKeep).length := by
    show (((frags.take limit).filter fragKeep).map _).length = _
    rw [List.length_map]
  refine ⟨rfl, ?_, ?_, ?_⟩
  · rw [hlen]
    calc ((frags.take limit).filter fragKeep).length
        ≤ (frags.take limit).length := List.length_filter_le _ _
      _ = min limit frags.length := htake
      _ ≤ limit := min_le_left _ _
  · rw [hlen, ← htake]
    exact length_filter_eq_iff_all fragKeep (frags.take limit)
  · intro f hf hkeep hlim
    rw [hlen]
    have hlt := length_filter_lt_of_mem_false hf hkeep
    rw [htake, min_eq_left hlim] at hlt
    exact hlt

/-- Witness for C2 (amended) at the page [no-title, good, good] with
limit 2: the malformed first fragment is within the first 2 fragments
and fails the keep check, the page has at least 2 fragments, and the
output indeed has fewer than 2 (and at most 2) records, while the
first-`limit` fragments are not all kept. -/
theorem C2_amended_witness :
    ((⟨none, some ⟨1, "u0".data⟩, none⟩ : Fragment) ∈
        ([⟨none, some ⟨1, "u0".data⟩, none⟩,
          ⟨some ⟨1, "t1".data⟩, some ⟨1, "u1".data⟩, none⟩,
          ⟨some ⟨1, "t2".data⟩, some ⟨1, "u2".data⟩, none⟩] :
            List Fragment).take 2 ∧
      fragKeep (⟨none, some ⟨1, "u0".data⟩, none⟩ : Fragment) = false ∧
      2 ≤ ([⟨none, some ⟨1, "u0".data⟩, none⟩,
            ⟨some ⟨1, "t1".data⟩, some ⟨1, "u1".data⟩, none⟩,
            ⟨some ⟨1, "t2".data⟩, some ⟨1, "u2".data⟩, none⟩] :
              List Fragment).length) ∧
    (search_duckduckgo 2 (SearchNet.page
        [⟨none, some ⟨1, "u0".data⟩, none⟩,
         ⟨some ⟨1, "t1".data⟩, some ⟨1, "u1".data⟩, none⟩,
         ⟨some ⟨1, "t2".data⟩, some ⟨1, "u2".data⟩, none⟩])).length < 2 ∧
    (search_duckduckgo 2 (SearchNet.page
        [⟨none, some ⟨1, "u0".data⟩, none⟩,
         ⟨some ⟨1, "t1".data⟩, some ⟨1, "u1".data⟩, none⟩,
         ⟨some ⟨1, "t2".data⟩, some ⟨1, "u2".data⟩, none⟩])).length ≤ 2 :=
  ⟨⟨by decide, by decide, by decide⟩,
    (C2_amended_slice_then_filter
        [⟨none, some ⟨1, "u0".data⟩, none⟩,
         ⟨some ⟨1, "t1".data⟩, some ⟨1, "u1".data⟩, none⟩,
         ⟨some ⟨1, "t2".data⟩, some ⟨1, "u2".data⟩, none⟩] 2).2.2.2
      ⟨none, some ⟨1, "u0".data⟩, none⟩ (by decide) (by decide) (by decide),
    (C2_amended_slice_then_filter
        [⟨none, some ⟨1, "u0".data⟩, none⟩,
         ⟨some ⟨1, "t1".data⟩, some ⟨1, "u1".data⟩, none⟩,
         ⟨some ⟨1, "t2".data⟩, some ⟨1, "u2".data⟩, none⟩] 2).2.1⟩

/-- C3: on a successful fetch, when the normalized text is longer than
10000 characters the returned text is its first 10000 characters
followed by the literal truncation marker (so the length is exactly
10000 plus the marker length, and the first 10000 characters agree);
when the normalized text has length at most 10000 it is returned
unchanged. -/
theorem C3_truncation_law (text : List Char) :
    (10000 < (normalizeWs text).length →
      fetch_url_core (FetchNet.success text) =
        (normalizeWs text).take 10000 ++ TRUNC_MARKER ∧
      (fetch_url_core (FetchNet.success text)).length =
        10000 + TRUNC_MARKER.length ∧
      (fetch_url_core (FetchNet.success text)).take 10000 =
        (normalizeWs text).take 10000) ∧
    ((normalizeWs text).length ≤ 10000 →
      fetch_url_core (FetchNet.success text) = normalizeWs text) := by
  constructor
  · intro h
    have he : fetch_url_core (FetchNet.success text) =
        (normalizeWs text).take 10000 ++ TRUNC_MARKER := by
      show truncate10k (normalizeWs text) = _
      unfold truncate10k
      rw [if_pos h]
    refine ⟨he, ?_, ?_⟩
    · rw [he]
      simp only [List.length_append, List.length_take]
      omega
    · have hlen : 10000 ≤ ((normalizeWs text).take 10000).length := by
        simp only [List.length_take]
        omega
      rw [he, List.take_append_of_le_length hlen, List.take_take]
      norm_num
  · intro h
    show truncate10k (normalizeWs text) = _
    unfold truncate10k
    rw [if_neg (by omega)]

/-- Witness for C3: a 10050-character extracted text (whose
normalization is itself) is truncated, and a short text is returned
unchanged. -/
theorem C3_truncation_law_witness :
    (10000 < (normalizeWs (List.replicate 10050 'a')).length ∧
      (fetch_url_core (FetchNet.success (List.replicate 10050 'a'))).length =
        10000 + TRUNC_MARKER.length) ∧
    ((normalizeWs "short text".data).length ≤ 10000 ∧
      fetch_url_core (FetchNet.success "short text".data) =
        normalizeWs "short text".data) := by
  have hg : goodChunk (List.replicate 10050 'a') = true :=
    goodChunk_replicate_a (by norm_num)
  have hrep : normalizeWs (List.replicate 10050 'a') = List.replicate 10050 'a' :=
    normalizeWs_eq_self_of_good hg
  have hlen : 10000 < (normalizeWs (List.replicate 10050 'a')).length := by
    rw [hrep, List.length_replicate]
    norm_num
  refine ⟨⟨hlen, ((C3_truncation_law (List.replicate 10050 'a')).1 hlen).2.1⟩, ?_, ?_⟩
  · decide
  · exact (C3_truncation_law "short text".data).2 (by decide)

/-- C4: the whitespace-normalization step of `fetch_url` is idempotent:
applying it to its own output yields that output unchanged, for every
input text. -/
theorem C4_normalization_idempotent (text : List Char) :
    normalizeWs (normalizeWs text) = normalizeWs text :=
  normalizeWs_joinSp_good (normalizeChunks_good text)

/-- C5 (counterexample): the claim that every record of a successful
search has a non-empty title and url is false.  The code only checks
that the title and url ELEMENTS are present (truthy); a title element
whose text is all whitespace yields a record whose title strips to the
empty string.  With limit 3 (within 1..10), the output contains a
record with empty title. -/
theorem C5_counterexample_empty_title :
    SearchItem.result ⟨[], "example.com".data, []⟩ ∈
      search_duckduckgo 3 (SearchNet.page
        [⟨some ⟨1, "   ".data⟩, some ⟨1, " example.com ".data⟩, none⟩]) := by
  decide

/-- C5 (amended): for every page and `1 ≤ limit ≤ 10`, the successful
output has at most `limit` records, and every record is built from a
kept fragment among the first `limit`: its title and url are the
whitespace-stripped texts of the fragment's (present) title and url
elements — which may be empty when those texts are all whitespace. -/
theorem C5_amended_bounded_output (frags : List Fragment) (limit : Nat)
    (h1 : 1 ≤ limit) (h2 : limit ≤ 10) :
    (search_duckduckgo limit (SearchNet.page frags)).length ≤ limit ∧
    ∀ item ∈ search_duckduckgo limit (SearchNet.page frags),
      ∃ f ∈ frags.take limit, fragKeep f = true ∧
        item = SearchItem.result (fragRecord f) := by
  constructor
  · show (((frags.take limit).filter fragKeep).map _).length ≤ limit
    rw [List.length_map]
    calc ((frags.take limit).filter fragKeep).length
        ≤ (frags.take limit).length := List.length_filter_le _ _
      _ ≤ limit := by
          simp [List.length_take]
  · intro item hitem
    rcases List.mem_map.mp hitem with ⟨f, hf, hfr⟩
    rcases List.mem_filter.mp hf with ⟨hft, hfk⟩
    exact ⟨f, hft, hfk, hfr.symm⟩

/-- Witness for C5 (amended) at a concrete page and limit 3. -/
theorem C5_amended_witness :
    ((1 : Nat) ≤ 3 ∧ (3 : Nat) ≤ 10) ∧
    (search_duckduckgo 3 (SearchNet.page
        [⟨some ⟨1, "t".data⟩, some ⟨1, "u".data⟩, some ⟨1, "s".data⟩⟩])).length ≤ 3 ∧
    ∀ item ∈ search_duckduckgo 3 (SearchNet.page
        [⟨some ⟨1, "t".data⟩, some ⟨1, "u".data⟩, some ⟨1, "s".data⟩⟩]),
      ∃ f ∈ ([⟨some ⟨1, "t".data⟩, some ⟨1, "u".data⟩, some ⟨1, "s".data⟩⟩] :
          List Fragment).take 3, fragKeep f = true ∧
        item = SearchItem.result (fragRecord f) :=
  ⟨⟨by decide, by decide⟩,
    C5_amended_bounded_output
      [⟨some ⟨1, "t".data⟩, some ⟨1, "u".data⟩, some ⟨1, "s".data⟩⟩] 3
      (by decide) (by decide)⟩

/-- C6: for every integer limit strictly greater than 10,
`search_and_fetch` clamps the limit: the effective limit passed to the
search step is exactly 10, and the whole call behaves exactly as with
limit 10, for every query and environment. -/
theorem C6_limit_clamped_to_ten (query : List Char) (limit : Int)
    (snet : SearchNet) (fenv : List Char → FetchNet) (h : 10 < limit) :
    effectiveLimit limit = 10 ∧
    search_and_fetch query limit snet fenv =
      search_and_fetch query 10 snet fenv := by
  have he : effectiveLimit limit = 10 := by
    unfold effectiveLimit
    rw [min_eq_right (le_of_lt h)]
    rfl
  refine ⟨he, ?_⟩
  have h1 : ¬ limit < 1 := by omega
  have h10 : ¬ (10 : Int) < 1 := by norm_num
  unfold search_and_fetch
  rw [he]
  simp only [h1, h10, if_false]
  rw [show effectiveLimit 10 = 10 from rfl]

/-- Witness for C6 at limit 11. -/
theorem C6_limit_clamped_witness :
    (10 : Int) < 11 ∧
    (effectiveLimit 11 = 10 ∧
      search_and_fetch "a".data 11 (SearchNet.page []) (fun _ => FetchNet.timeout) =
        search_and_fetch "a".data 10 (SearchNet.page []) (fun _ => FetchNet.timeout)) :=
  ⟨by decide,
    C6_limit_clamped_to_ten "a".data 11 (SearchNet.page [])
      (fun _ => FetchNet.timeout) (by decide)⟩

/-- C7: validation happens before any network activity: for every query
whose stripped text is empty, `search_and_fetch` raises the query
`ValueError` whatever the limit and environments are; and for every
non-positive limit (with a valid query) it raises the limit
`ValueError`, again independently of the environments. -/
theorem C7_invalid_args_raise (query : List Char) (limit : Int)
    (snet : SearchNet) (fenv : List Char → FetchNet) :
    ((strip query).isEmpty = true →
      search_and_fetch query limit snet fenv =
        PyResult.exn (PyExn.valueError "Query must be a non-empty string".data)) ∧
    ((strip query).isEmpty = false → limit < 1 →
      search_and_fetch query limit snet fenv =
        PyResult.exn (PyExn.valueError "Limit must be a positive integer".data)) := by
  constructor
  · intro h
    unfold search_and_fetch
    rw [h]
    rfl
  · intro h hl
    unfold search_and_fetch
    rw [h]
    simp only [Bool.false_eq_true, if_false, hl, if_true]

/-- Witness for C7: a whitespace-only query, and a zero limit. -/
theorem C7_invalid_args_witness :
    ((strip "   ".data).isEmpty = true ∧
      search_and_fetch "   ".data 3 (SearchNet.page []) (fun _ => FetchNet.timeout) =
        PyResult.exn (PyExn.valueError "Query must be a non-empty string".data)) ∧
    ((strip "q".data).isEmpty = false ∧ (0 : Int) < 1 ∧
      search_and_fetch "q".data 0 (SearchNet.page []) (fun _ => FetchNet.timeout) =
        PyResult.exn (PyExn.valueError "Limit must be a positive integer".data)) :=
  ⟨⟨by decide,
      (C7_invalid_args_raise "   ".data 3 (SearchNet.page [])
        (fun _ => FetchNet.timeout)).1 (by decide)⟩,
    ⟨by decide, by decide,
      (C7_invalid_args_raise "q".data 0 (SearchNet.page [])
        (fun _ => FetchNet.timeout)).2 (by decide) (by decide)⟩⟩

/-- C8: `fetch_url` is a total function of the request outcome (no
network/HTTP failure is raised), and each failure mode yields exactly
the specified string: a timeout, an HTTP error status with its code and
reason phrase, and any other failure with its description. -/
theorem C8_fetch_error_strings :
    (∀ (url : List Char) (fenv : List Char → FetchNet),
      fetch_url url fenv = fetch_url_core (fenv (requestedUrl url))) ∧
    fetch_url_core FetchNet.timeout =
      "Error: Request timed out while fetching the webpage".data ∧
    (∀ (code : Nat) (reason : List Char),
      fetch_url_core (FetchNet.httpStatus code reason) =
        "Error: HTTP ".data ++ (toString code).data ++ " - ".data ++ reason) ∧
    (∀ desc : List Char,
      fetch_url_core (FetchNet.failure desc) =
        "Error: Failed to fetch webpage - ".data ++ desc) :=
  ⟨fun _ _ => rfl, rfl, fun _ _ => rfl, fun _ => rfl⟩

/-- C9: a url lacking an `http://` or `https://` prefix gets `https://`
prepended before the request is issued, a url that has one is used
unchanged, and the request of `fetch_url` is issued to exactly this
resulting url; in particular fetching "example.com" requests
"https://example.com". -/
theorem C9_scheme_prefixing :
    (∀ url : List Char, hasScheme url = true → requestedUrl url = url) ∧
    (∀ url : List Char, hasScheme url = false →
      requestedUrl url = "https://".data ++ url) ∧
    requestedUrl "example.com".data = "https://example.com".data ∧
    (∀ (url : List Char) (fenv : List Char → FetchNet),
      fetch_url url fenv = fetch_url_core (fenv (requestedUrl url))) := by
  refine ⟨?_, ?_, by decide, fun _ _ => rfl⟩
  · intro url h
    unfold requestedUrl
    rw [h]
    rfl
  · intro url h
    unfold requestedUrl
    rw [h]
    rfl

/-- Witness for C9: a url with a scheme and one without. -/
theorem C9_scheme_prefixing_witness :
    (hasScheme "http://a.io".data = true ∧
      requestedUrl "http://a.io".data = "http://a.io".data) ∧
    (hasScheme "example.com".data = false ∧
      requestedUrl "example.com".data = "https://".data ++ "example.com".data) :=
  ⟨⟨by decide, C9_scheme_prefixing.1 "http://a.io".data (by decide)⟩,
    ⟨by decide, C9_scheme_prefixing.2.1 "example.com".data (by decide)⟩⟩

/-- C10 (implicit): every record of a successful search is
`fragRecord f` for a kept fragment `f` among the first `limit`, and its
title, url and snippet carry no leading or trailing whitespace: each is
a fixpoint of `strip`, with whitespace-free head and last character. -/
theorem C10_record_fields_stripped (frags : List Fragment) (limit : Nat)
    (r : SearchRecord)
    (h : SearchItem.result r ∈ search_duckduckgo limit (SearchNet.page frags)) :
    (∃ f ∈ frags.take limit, fragKeep f = true ∧ r = fragRecord f) ∧
    strip r.title = r.title ∧ strip r.url = r.url ∧ strip r.snippet = r.snippet ∧
    headOk r.title = true ∧ lastOk r.title = true ∧
    headOk r.url = true ∧ lastOk r.url = true ∧
    headOk r.snippet = true ∧ lastOk r.snippet = true := by
  rcases List.mem_map.mp h with ⟨f, hf, hfr⟩
  rcases List.mem_filter.mp hf with ⟨hft, hfk⟩
  have hr : r = fragRecord f := by
    injection hfr with h1
    exact h1.symm
  subst hr
  refine ⟨⟨f, hft, hfk, rfl⟩, ?_, ?_, ?_, ?_, ?_, ?_, ?_, ?_, ?_⟩
  · exact strip_idem (elemText f.title)
  · exact strip_idem (elemText f.url)
  · show strip (fragRecord f).snippet = (fragRecord f).snippet
    by_cases hs : elemTruthy f.snippet = true
    · simp only [fragRecord, hs, if_true]
      exact strip_idem (elemText f.snippet)
    · simp only [fragRecord, hs, if_false]
      rfl
  · exact headOk_strip (elemText f.title)
  · exact lastOk_strip (elemText f.title)
  · exact headOk_strip (elemText f.url)
  · exact lastOk_strip (elemText f.url)
  · show headOk (fragRecord f).snippet = true
    by_cases hs : elemTruthy f.snippet = true
    · simp only [fragRecord, hs, if_true]
      exact headOk_strip (elemText f.snippet)
    · simp only [fragRecord, hs, if_false]
      rfl
  · show lastOk (fragRecord f).snippet = true
    by_cases hs : elemTruthy f.snippet = true
    · simp only [fragRecord, hs, if_true]
      exact lastOk_strip (elemText f.snippet)
    · simp only [fragRecord, hs, if_false]
      rfl

/-- Witness for C10 at a concrete page whose element texts carry
surrounding whitespace. -/
theorem C10_record_fields_witness :
    SearchItem.result ⟨"t".data, "u".data, "s".data⟩ ∈
      search_duckduckgo 3 (SearchNet.page
        [⟨some ⟨1, " t ".data⟩, some ⟨1, " u ".data⟩, some ⟨1, " s ".data⟩⟩]) ∧
    ((∃ f ∈ ([⟨some ⟨1, " t ".data⟩, some ⟨1, " u ".data⟩, some ⟨1, " s ".data⟩⟩] :
        List Fragment).take 3, fragKeep f = true ∧
        (⟨"t".data, "u".data, "s".data⟩ : SearchRecord) = fragRecord f) ∧
      strip ("t".data) = "t".data ∧ strip ("u".data) = "u".data ∧
      strip ("s".data) = "s".data ∧
      headOk ("t".data) = true ∧ lastOk ("t".data) = true ∧
      headOk ("u".data) = true ∧ lastOk ("u".data) = true ∧
      headOk ("s".data) = true ∧ lastOk ("s".data) = true) :=
  ⟨by decide,
    C10_record_fields_stripped
      [⟨some ⟨1, " t ".data⟩, some ⟨1, " u ".data⟩, some ⟨1, " s ".data⟩⟩] 3
      ⟨"t".data, "u".data, "s".data⟩ (by decide)⟩

end WebSearch
